import Mathlib

/-!
Verification of the Monte Carlo GPU pricer (`cudran_monte_carlo_gpu.cu`) and
the toy polynomial example (`cudran_square_poly_gpu.cu`).

Floating-point values are embedded as real numbers; machine loops become
`Nat.iterate` / `List.foldl` over explicit state.
-/

namespace CudranMC

/-- The kernel-visible constants (`__constant__ int N; __constant__ float
T, r, sigma, rho, alpha, dt, con1, con2;`, source lines 46–47). -/
structure KParams where
  N : ℕ
  T : ℝ
  r : ℝ
  sigma : ℝ
  rho : ℝ
  alpha : ℝ
  dt : ℝ
  con1 : ℝ
  con2 : ℝ

/-- The host-side derivation of the constants (`main`, lines 145–152):
`h_alpha = sqrt(1 - h_rho*h_rho)`, `h_dt = T/N` (main fixes `h_T = 1.0f` and
sets `h_dt = 1.0f/h_N`), `h_con1 = 1 + h_r*h_dt`, `h_con2 = sqrt(h_dt)*h_sigma`. -/
noncomputable def hostParams (hN : ℕ) (hT hr hsigma hrho : ℝ) : KParams where
  N := hN
  T := hT
  r := hr
  sigma := hsigma
  rho := hrho
  alpha := Real.sqrt (1 - hrho * hrho)
  dt := hT / hN
  con1 := 1 + hr * (hT / hN)
  con2 := Real.sqrt (hT / hN) * hsigma

/-- One iteration of the path loop shared by `pathcalcV1` (stride
`blockDim.x`, lines 60–72) and `pathcalcV2` (stride 1, lines 95–107): state is
`(i, s1, s2)`; the body reads `y1 = d_z[i]`, advances `i` by the stride, reads
the raw leg-1 shock `d_z[i]`, forms `y2 = rho*y1 + alpha*d_z[i]`, advances `i`
again, and multiplies `s1` by `con1 + con2*y1` and `s2` by `con1 + con2*y2`. -/
def pathIter (p : KParams) (z : ℕ → ℝ) (stride : ℕ) (st : ℕ × ℝ × ℝ) :
    ℕ × ℝ × ℝ :=
  (st.1 + stride + stride,
   st.2.1 * (p.con1 + p.con2 * z st.1),
   st.2.2 * (p.con1 + p.con2 * (p.rho * z st.1 + p.alpha * z (st.1 + stride))))

/-- The loop `for (n = 0; n < N; n++)` run to completion from start index
`i0` with `s1 = s2 = 1.0` (lines 57–72 and 92–107). -/
def pathState (p : KParams) (z : ℕ → ℝ) (stride i0 : ℕ) : ℕ × ℝ × ℝ :=
  (pathIter p z stride)^[p.N] (i0, 1, 1)

/-- The payoff decision (lines 75–80 and 110–115): `exp(-r*T)` when
`|s1 - 1.0| < 0.1 && |s2 - 1.0| < 0.1`, else `0.0`. -/
noncomputable def payoffOf (p : KParams) (s1 s2 : ℝ) : ℝ :=
  if |s1 - 1| < 0.1 ∧ |s2 - 1| < 0.1 then Real.exp (-p.r * p.T) else 0

/-- Kernel `pathcalcV1` (lines 50–83) for the thread `threadIdx.x = t`,
`blockIdx.x = b`, `blockDim.x = B`: start index
`i = threadIdx.x + 2*N*blockIdx.x*blockDim.x`, stride `blockDim.x`. -/
noncomputable def pathcalcV1 (p : KParams) (z : ℕ → ℝ) (t b B : ℕ) : ℝ :=
  payoffOf p (pathState p z B (t + 2 * p.N * b * B)).2.1
    (pathState p z B (t + 2 * p.N * b * B)).2.2

/-- Kernel `pathcalcV2` (lines 85–118): start index
`i = 2*N*threadIdx.x + 2*N*blockIdx.x*blockDim.x`, stride 1. -/
noncomputable def pathcalcV2 (p : KParams) (z : ℕ → ℝ) (t b B : ℕ) : ℝ :=
  payoffOf p (pathState p z 1 (2 * p.N * t + 2 * p.N * b * B)).2.1
    (pathState p z 1 (2 * p.N * t + 2 * p.N * b * B)).2.2

/-- The buffer position `pathcalcV1` reads for thread `t` of block `b`
(block width `B`) at step `n`, leg `l`: the start index
`t + 2*N*b*B` advanced by `B` once per read, hence `(2*n+l)*B` in total. -/
def offsetV1 (Nn B t b n l : ℕ) : ℕ := t + 2 * Nn * b * B + (2 * n + l) * B

/-- The buffer position `pathcalcV2` reads for the path `pid =
threadIdx.x + blockIdx.x*blockDim.x` at step `n`, leg `l`: start index
`2*N*pid` advanced by 1 per read. -/
def offsetV2 (Nn pid n l : ℕ) : ℕ := 2 * Nn * pid + (2 * n + l)

/-- One step of the recurrence exactly as the spec words it, over logical
shocks `y step leg`: `y1 = y n 0`, `y2 = rho*y1 + alpha*(y n 1)`,
`s1 *= con1 + con2*y1`, `s2 *= con1 + con2*y2`. -/
def specStep (p : KParams) (y : ℕ → ℕ → ℝ) (s : ℝ × ℝ) (n : ℕ) : ℝ × ℝ :=
  (s.1 * (p.con1 + p.con2 * y n 0),
   s.2 * (p.con1 + p.con2 * (p.rho * y n 0 + p.alpha * y n 1)))

/-- The spec's recurrence folded over steps `0, …, k-1`. -/
def specFold (p : KParams) (y : ℕ → ℕ → ℝ) (k : ℕ) (s : ℝ × ℝ) : ℝ × ℝ :=
  (List.range k).foldl (specStep p y) s

/-- The per-path payoff exactly as the spec words it: run the recurrence for
`N` steps from `s1 = s2 = 1.0` on the logical shocks `y`, then pay
`exp(-r*T)` iff both levels remain within `0.1` of `1.0`. -/
noncomputable def specPathPayoff (p : KParams) (y : ℕ → ℕ → ℝ) : ℝ :=
  payoffOf p (specFold p y p.N (1, 1)).1 (specFold p y p.N (1, 1)).2

lemma pathIter_iterate (p : KParams) (z : ℕ → ℝ) (stride : ℕ) (k i0 : ℕ)
    (s : ℝ × ℝ) :
    (pathIter p z stride)^[k] (i0, s) =
      (i0 + 2 * stride * k,
       specFold p (fun n l => z (i0 + (2 * n + l) * stride)) k s) := by
  induction k with
  | zero => simp [specFold]
  | succ k ih =>
    rw [Function.iterate_succ_apply', ih]
    have e0 : i0 + (2 * k + 0) * stride = i0 + 2 * stride * k := by ring
    have e1 : i0 + (2 * k + 1) * stride = i0 + 2 * stride * k + stride := by ring
    simp only [specFold, List.range_succ, List.foldl_append, List.foldl_cons,
      List.foldl_nil, pathIter, specStep, Prod.mk.injEq]
    refine ⟨by ring, ?_, ?_⟩
    · rw [e0]
    · rw [e0, e1]

/-- C1: `pathcalcV2` initializes `s1 = s2 = 1`, consumes its contiguous block
of shocks in `(step, leg)` order, applies the correlated-shock recurrence at
each of the `N` steps, and pays `exp(-r*T)` iff both terminal levels lie
strictly within `0.1` of `1.0` — that is, it computes exactly the spec's
path payoff on the shocks located at `offsetV2`. -/
theorem pathcalcV2_computes_spec_payoff (p : KParams) (z : ℕ → ℝ) (t b B : ℕ) :
    pathcalcV2 p z t b B =
      specPathPayoff p (fun n l => z (offsetV2 p.N (t + b * B) n l)) := by
  have hy : (fun n l => z (2 * p.N * t + 2 * p.N * b * B + (2 * n + l) * 1)) =
      fun n l => z (offsetV2 p.N (t + b * B) n l) := by
    funext n l
    congr 1
    simp only [offsetV2]
    ring
  unfold pathcalcV2 specPathPayoff pathState
  rw [pathIter_iterate, hy]

lemma specFold_congr (p : KParams) (y y' : ℕ → ℕ → ℝ) (k : ℕ) (s : ℝ × ℝ)
    (h : ∀ n < k, y n 0 = y' n 0 ∧ y n 1 = y' n 1) :
    specFold p y k s = specFold p y' k s := by
  induction k with
  | zero => rfl
  | succ k ih =>
    simp only [specFold, List.range_succ, List.foldl_append, List.foldl_cons,
      List.foldl_nil] at *
    rw [ih fun n hn => h n (Nat.lt_succ_of_lt hn)]
    simp only [specStep, (h k (Nat.lt_succ_self k)).1, (h k (Nat.lt_succ_self k)).2]

/-- C2: given the same logical per-path shocks (each buffer filled under its
kernel's own layout so that the path sees the same `2N` values in the same
step/leg order), the strided kernel `pathcalcV1` and the contiguous kernel
`pathcalcV2` produce the same payoff for every path. -/
theorem strided_contiguous_payoff_equiv (p : KParams) (y : ℕ → ℕ → ℝ)
    (z1 z2 : ℕ → ℝ) (t b B : ℕ)
    (h1 : ∀ n < p.N, ∀ l < 2, z1 (offsetV1 p.N B t b n l) = y n l)
    (h2 : ∀ n < p.N, ∀ l < 2, z2 (offsetV2 p.N (t + b * B) n l) = y n l) :
    pathcalcV1 p z1 t b B = pathcalcV2 p z2 t b B := by
  have e1 : specFold p (fun n l => z1 (t + 2 * p.N * b * B + (2 * n + l) * B))
      p.N (1, 1) = specFold p y p.N (1, 1) := by
    refine specFold_congr p _ y p.N (1, 1) fun n hn => ?_
    exact ⟨h1 n hn 0 (by norm_num), h1 n hn 1 (by norm_num)⟩
  have e2 : specFold p (fun n l => z2 (2 * p.N * t + 2 * p.N * b * B + (2 * n + l) * 1))
      p.N (1, 1) = specFold p y p.N (1, 1) := by
    refine specFold_congr p _ y p.N (1, 1) fun n hn => ?_
    have o0 : 2 * p.N * t + 2 * p.N * b * B + (2 * n + 0) * 1 =
        offsetV2 p.N (t + b * B) n 0 := by simp only [offsetV2]; ring
    have o1 : 2 * p.N * t + 2 * p.N * b * B + (2 * n + 1) * 1 =
        offsetV2 p.N (t + b * B) n 1 := by simp only [offsetV2]; ring
    rw [o0, o1]
    exact ⟨h2 n hn 0 (by norm_num), h2 n hn 1 (by norm_num)⟩
  unfold pathcalcV1 pathcalcV2 pathState
  rw [pathIter_iterate, pathIter_iterate, e1, e2]

/-- Witness for C2 at a concrete configuration. -/
theorem strided_contiguous_payoff_equiv_witness :
    pathcalcV1 (hostParams 2 1 0 1 0) (fun _ => 0) 0 0 1 =
      pathcalcV2 (hostParams 2 1 0 1 0) (fun _ => 0) 0 0 1 :=
  strided_contiguous_payoff_equiv (hostParams 2 1 0 1 0) (fun _ _ => 0)
    (fun _ => 0) (fun _ => 0) 0 0 1
    (fun _ _ _ _ => rfl) (fun _ _ _ _ => rfl)

lemma add_mul_digit_inj {B a a' k k' : ℕ} (ha : a < B) (ha' : a' < B)
    (h : a + B * k = a' + B * k') : a = a' ∧ k = k' := by
  have hma : (a + B * k) % B = a := by
    rw [Nat.add_mul_mod_self_left, Nat.mod_eq_of_lt ha]
  have hma' : (a' + B * k') % B = a' := by
    rw [Nat.add_mul_mod_self_left, Nat.mod_eq_of_lt ha']
  have haa : a = a' := by rw [← hma, ← hma', h]
  refine ⟨haa, ?_⟩
  have hB : 0 < B := by omega
  have : B * k = B * k' := by omega
  exact Nat.eq_of_mul_eq_mul_left hB this

/-- C3: for each layout, every in-bounds triple `(path, step, leg)` reads a
position inside `[0, 2*N*P)` (for `pathcalcV1` with `P = G*B`, `G` blocks of
width `B`; for `pathcalcV2` with `P` paths), and the index function is
injective: distinct triples never collide. -/
theorem layout_offsets_inbounds_injective (Nn B G P : ℕ) :
    (∀ t b n l, t < B → b < G → n < Nn → l < 2 →
      offsetV1 Nn B t b n l < 2 * Nn * (G * B)) ∧
    (∀ t b n l t' b' n' l', t < B → t' < B → n < Nn → n' < Nn → l < 2 → l' < 2 →
      offsetV1 Nn B t b n l = offsetV1 Nn B t' b' n' l' →
      t = t' ∧ b = b' ∧ n = n' ∧ l = l') ∧
    (∀ pid n l, pid < P → n < Nn → l < 2 →
      offsetV2 Nn pid n l < 2 * Nn * P) ∧
    (∀ pid n l pid' n' l', n < Nn → n' < Nn → l < 2 → l' < 2 →
      offsetV2 Nn pid n l = offsetV2 Nn pid' n' l' →
      pid = pid' ∧ n = n' ∧ l = l') := by
  have rearr : ∀ t b n l, offsetV1 Nn B t b n l = t + B * (2 * n + l + 2 * Nn * b) := by
    intro t b n l
    simp only [offsetV1]
    ring
  refine ⟨?_, ?_, ?_, ?_⟩
  · intro t b n l ht hb hn hl
    rw [rearr]
    have hk : 2 * n + l + 2 * Nn * b < 2 * Nn * G := by
      have h1 : 2 * n + l < 2 * Nn := by omega
      have h2 : 2 * Nn * b + 2 * Nn ≤ 2 * Nn * G := by
        have := Nat.mul_le_mul_left (2 * Nn) (Nat.succ_le_of_lt hb)
        simpa [Nat.mul_succ] using this
      omega
    calc t + B * (2 * n + l + 2 * Nn * b) < B + B * (2 * n + l + 2 * Nn * b) := by
          omega
      _ = B * (2 * n + l + 2 * Nn * b + 1) := by ring
      _ ≤ B * (2 * Nn * G) := Nat.mul_le_mul_left B (by omega)
      _ = 2 * Nn * (G * B) := by ring
  · intro t b n l t' b' n' l' ht ht' hn hn' hl hl' h
    rw [rearr, rearr] at h
    obtain ⟨htt, hk⟩ := add_mul_digit_inj ht ht' h
    have hNpos : 0 < Nn := by omega
    have hk' : (2 * n + l) + (2 * Nn) * b = (2 * n' + l') + (2 * Nn) * b' := by
      omega
    obtain ⟨hm, hbb⟩ := add_mul_digit_inj (by omega) (by omega) hk'
    exact ⟨htt, hbb, by omega, by omega⟩
  · intro pid n l hpid hn hl
    simp only [offsetV2]
    have h1 : 2 * n + l < 2 * Nn := by omega
    have h2 : 2 * Nn * pid + 2 * Nn ≤ 2 * Nn * P := by
      have := Nat.mul_le_mul_left (2 * Nn) (Nat.succ_le_of_lt hpid)
      simpa [Nat.mul_succ] using this
    omega
  · intro pid n l pid' n' l' hn hn' hl hl' h
    simp only [offsetV2] at h
    have hNpos : 0 < Nn := by omega
    have h' : (2 * n + l) + (2 * Nn) * pid = (2 * n' + l') + (2 * Nn) * pid' := by
      omega
    obtain ⟨hm, hpp⟩ := add_mul_digit_inj (by omega) (by omega) h'
    exact ⟨hpp, by omega, by omega⟩

/-- The host aggregation (`main`, lines 194–203): `sum1 = Σ h_v[i]`,
`sum2 = Σ h_v[i]*h_v[i]` over the `NPATH` payoffs, then the printed pair
`(sum1/NPATH, sqrt((sum2/NPATH - (sum1/NPATH)*(sum1/NPATH))/NPATH))`. -/
noncomputable def aggregate (v : ℕ → ℝ) (P : ℕ) : ℝ × ℝ :=
  ((∑ i ∈ Finset.range P, v i) / P,
   Real.sqrt (((∑ i ∈ Finset.range P, v i * v i) / P -
     ((∑ i ∈ Finset.range P, v i) / P) * ((∑ i ∈ Finset.range P, v i) / P)) / P))

lemma iterate_state_const (p : KParams) (z : ℕ → ℝ) (stride : ℕ)
    (h1 : p.con1 = 1) (h2 : p.con2 = 0) (k : ℕ) (st : ℕ × ℝ × ℝ) :
    ((pathIter p z stride)^[k] st).2 = st.2 := by
  induction k with
  | zero => rfl
  | succ k ih =>
    rw [Function.iterate_succ_apply']
    simp [pathIter, h1, h2, ih]

/-- C6: with `volatility = 0` (so `con2 = 0`, `con1 = 1 + r*dt`) and
`riskFreeRate = 0`, every path ends at `s1 = s2 = 1` exactly, for every `N`
and independently of the random draws; every payoff is `exp(0) = 1`; and the
aggregation of those payoffs yields `sampleMean = 1`, `sampleStdError = 0`. -/
theorem zero_volatility_degeneracy (N : ℕ) (T rho : ℝ) (z : ℕ → ℝ) (B P : ℕ)
    (hP : 0 < P) (v : ℕ → ℝ)
    (hv : ∀ i, i < P →
      v i = pathcalcV2 (hostParams N T 0 0 rho) z (i % B) (i / B) B) :
    (∀ stride i0, (pathState (hostParams N T 0 0 rho) z stride i0).2 = (1, 1)) ∧
    (∀ t b, pathcalcV2 (hostParams N T 0 0 rho) z t b B = 1) ∧
    aggregate v P = (1, 0) := by
  have hcon1 : (hostParams N T 0 0 rho).con1 = 1 := by
    simp [hostParams]
  have hcon2 : (hostParams N T 0 0 rho).con2 = 0 := by
    simp [hostParams]
  have hstate : ∀ stride i0,
      (pathState (hostParams N T 0 0 rho) z stride i0).2 = (1, 1) := by
    intro stride i0
    exact iterate_state_const _ z stride hcon1 hcon2 _ _
  have hpay : ∀ t b, pathcalcV2 (hostParams N T 0 0 rho) z t b B = 1 := by
    intro t b
    unfold pathcalcV2
    rw [show ∀ q : ℕ × ℝ × ℝ, payoffOf (hostParams N T 0 0 rho) q.2.1 q.2.2 =
        payoffOf (hostParams N T 0 0 rho) q.2.1 q.2.2 from fun _ => rfl]
    have h := hstate 1 (2 * (hostParams N T 0 0 rho).N * t +
      2 * (hostParams N T 0 0 rho).N * b * B)
    rw [show (pathState (hostParams N T 0 0 rho) z 1
        (2 * (hostParams N T 0 0 rho).N * t +
         2 * (hostParams N T 0 0 rho).N * b * B)).2.1 = 1 from by rw [h]]
    rw [show (pathState (hostParams N T 0 0 rho) z 1
        (2 * (hostParams N T 0 0 rho).N * t +
         2 * (hostParams N T 0 0 rho).N * b * B)).2.2 = 1 from by rw [h]]
    unfold payoffOf
    rw [if_pos (by norm_num)]
    simp [hostParams]
  have hv1 : ∀ i ∈ Finset.range P, v i = 1 := by
    intro i hi
    rw [hv i (Finset.mem_range.mp hi), hpay]
  have hsum1 : (∑ i ∈ Finset.range P, v i) = (P : ℝ) := by
    rw [Finset.sum_congr rfl hv1]
    simp
  have hsum2 : (∑ i ∈ Finset.range P, v i * v i) = (P : ℝ) := by
    rw [Finset.sum_congr rfl fun i hi => by rw [hv1 i hi, mul_one]]
    simp
  have hPne : (P : ℝ) ≠ 0 := Nat.cast_ne_zero.mpr hP.ne'
  refine ⟨hstate, hpay, ?_⟩
  unfold aggregate
  rw [hsum1, hsum2, div_self hPne]
  norm_num

/-- Witness for C6 at a concrete configuration (`N = 1`, `T = 1`, `ρ = 0`,
one block of one thread, one path, zero shocks). -/
theorem zero_volatility_degeneracy_witness :
    (∀ stride i0,
      (pathState (hostParams 1 1 0 0 0) (fun _ => 0) stride i0).2 = (1, 1)) ∧
    (∀ t b, pathcalcV2 (hostParams 1 1 0 0 0) (fun _ => 0) t b 1 = 1) ∧
    aggregate (fun i => pathcalcV2 (hostParams 1 1 0 0 0) (fun _ => 0)
      (i % 1) (i / 1) 1) 1 = (1, 0) :=
  zero_volatility_degeneracy 1 1 0 (fun _ => 0) 1 1 Nat.one_pos _
    (fun _ _ => rfl)

lemma iterate_legs_equal (p : KParams) (z : ℕ → ℝ) (stride : ℕ)
    (hrho : p.rho = 1) (halpha : p.alpha = 0) (k : ℕ) (st : ℕ × ℝ × ℝ)
    (hst : st.2.1 = st.2.2) :
    ((pathIter p z stride)^[k] st).2.1 = ((pathIter p z stride)^[k] st).2.2 := by
  induction k with
  | zero => exact hst
  | succ k ih =>
    rw [Function.iterate_succ_apply']
    simp [pathIter, hrho, halpha, ih]

/-- C7: with `correlation = 1.0` the derived `alpha = sqrt(1 - 1*1) = 0`, so
at every step the correlated shock `y2 = rho*y1 + alpha*(raw leg-1 shock)`
equals `y1`, and the two accumulators end equal: for every stride and start
index (hence for both kernels and every path), final `s1 =` final `s2`. -/
theorem full_correlation_legs_equal (N : ℕ) (T r sigma : ℝ) (z : ℕ → ℝ) :
    ((hostParams N T r sigma 1).alpha = 0) ∧
    (∀ y1 yraw : ℝ, (hostParams N T r sigma 1).rho * y1 +
      (hostParams N T r sigma 1).alpha * yraw = y1) ∧
    (∀ stride i0, (pathState (hostParams N T r sigma 1) z stride i0).2.1 =
      (pathState (hostParams N T r sigma 1) z stride i0).2.2) := by
  have halpha : (hostParams N T r sigma 1).alpha = 0 := by
    simp [hostParams]
  have hrho : (hostParams N T r sigma 1).rho = 1 := rfl
  refine ⟨halpha, ?_, ?_⟩
  · intro y1 yraw
    rw [hrho, halpha]
    ring
  · intro stride i0
    exact iterate_legs_equal _ z stride hrho halpha _ _ rfl

/-- The observable actions of `main` (lines 128–203), in program order. -/
inductive Act where
  | findDevice
  | hostAlloc
  | cudaMallocV
  | cudaMallocZ
  | copyConstants
  | curandGenerate
  | kernelLaunch
  | memcpyBack
  | computeAverage
  | exitFailure
deriving DecidableEq, Repr

/-- The phase trace of `main`: `findCudaDevice`/`printDeviceInfo`, the host
`malloc`, then the checked `cudaMalloc` of `d_v` (`NPATH` floats) and of `d_z`
(`2*h_N*NPATH` floats, 4 bytes each); `checkCudaErrors` exits the process on
an allocation failure, so each later phase runs only if the allocations
succeeded.  `fits req` models whether a `cudaMalloc` of `req` bytes succeeds
on the device, i.e. whether the request fits the memory budget. -/
def mainTrace (fits : ℕ → Bool) (NPATH hN : ℕ) : List Act :=
  Act.findDevice :: Act.hostAlloc ::
    (if fits (4 * NPATH) then
      Act.cudaMallocV ::
        (if fits (4 * (2 * hN * NPATH)) then
          [Act.cudaMallocZ, Act.copyConstants, Act.curandGenerate,
           Act.kernelLaunch, Act.memcpyBack, Act.computeAverage]
        else [Act.exitFailure])
    else [Act.exitFailure])

/-- C5: the checked allocation of the `2*N*P`-slot random buffer happens
before random-number generation; when that request does not fit the memory
budget the run ends with `exitFailure` and neither generation nor the
simulation kernel is ever reached. -/
theorem memory_check_before_generation (fits : ℕ → Bool) (NPATH hN : ℕ)
    (hv : fits (4 * NPATH) = true)
    (hz : fits (4 * (2 * hN * NPATH)) = false) :
    mainTrace fits NPATH hN =
      [Act.findDevice, Act.hostAlloc, Act.cudaMallocV, Act.exitFailure] ∧
    Act.curandGenerate ∉ mainTrace fits NPATH hN ∧
    Act.kernelLaunch ∉ mainTrace fits NPATH hN := by
  unfold mainTrace
  rw [hv, hz]
  refine ⟨rfl, ?_, ?_⟩ <;> simp

/-- Witness for C5: `NPATH = 960000`, `h_N = 100` against a 4 MB budget: the
payoff array (3.84 MB) fits, the 768 MB random buffer does not. -/
theorem memory_check_before_generation_witness :
    mainTrace (fun req => req ≤ 4000000) 960000 100 =
      [Act.findDevice, Act.hostAlloc, Act.cudaMallocV, Act.exitFailure] ∧
    Act.curandGenerate ∉ mainTrace (fun req => req ≤ 4000000) 960000 100 ∧
    Act.kernelLaunch ∉ mainTrace (fun req => req ≤ 4000000) 960000 100 :=
  memory_check_before_generation (fun req => req ≤ 4000000) 960000 100
    (by decide) (by decide)

/-- One run of the simulation pipeline: draw the stream for the seed, run the
chosen kernel for every path (`useV2 = true` is line 181's `pathcalcV2`; the
thread/block decomposition of path `pid` is `pid % B`, `pid / B`), and
aggregate the `G*B` payoffs. -/
noncomputable def runSimulation (gen : ℕ → ℕ → ℝ) (seed : ℕ) (p : KParams)
    (B G : ℕ) (useV2 : Bool) : (ℕ → ℝ) × (ℝ × ℝ) :=
  (fun pid => if useV2 then pathcalcV2 p (gen seed) (pid % B) (pid / B) B
    else pathcalcV1 p (gen seed) (pid % B) (pid / B) B,
   aggregate (fun pid => if useV2 then pathcalcV2 p (gen seed) (pid % B) (pid / B) B
    else pathcalcV1 p (gen seed) (pid % B) (pid / B) B) (G * B))

/-- C8: the run is deterministic: randomness enters only through the stream
the generator yields for the fixed seed, so two runs whose generators agree
on that seed (in particular two runs of the same program) produce identical
payoff collections and identical `(sampleMean, sampleStdError)`. -/
theorem run_deterministic (g1 g2 : ℕ → ℕ → ℝ) (seed : ℕ) (p : KParams)
    (B G : ℕ) (useV2 : Bool) (h : g1 seed = g2 seed) :
    runSimulation g1 seed p B G useV2 = runSimulation g2 seed p B G useV2 := by
  unfold runSimulation
  rw [h]

/-- Witness for C8: two syntactically different generators with the same
stream at seed 0 give the same run output. -/
theorem run_deterministic_witness :
    runSimulation (fun _ _ => 0) 0 (hostParams 1 1 0 0 0) 1 1 true =
      runSimulation (fun _ _ => id 0) 0 (hostParams 1 1 0 0 0) 1 1 true :=
  run_deterministic (fun _ _ => 0) (fun _ _ => id 0) 0 (hostParams 1 1 0 0 0)
    1 1 true rfl

/-- The whole `pathcalcV1` kernel for one thread as a transformer of device
memory `(d_z, d_v)` (lines 50–83): it reads `d_z` and performs the single
write `d_v[threadIdx.x + blockIdx.x*blockDim.x] = payoff`. -/
noncomputable def kernelV1Thread (p : KParams) (t b B : ℕ) (z v : ℕ → ℝ) :
    (ℕ → ℝ) × (ℕ → ℝ) :=
  (z, Function.update v (t + b * B) (pathcalcV1 p z t b B))

/-- The whole `pathcalcV2` kernel for one thread as a transformer of device
memory `(d_z, d_v)` (lines 85–118). -/
noncomputable def kernelV2Thread (p : KParams) (t b B : ℕ) (z v : ℕ → ℝ) :
    (ℕ → ℝ) × (ℕ → ℝ) :=
  (z, Function.update v (t + b * B) (pathcalcV2 p z t b B))

/-- C9: for either kernel, one path's evaluation leaves the random buffer
untouched, writes its own payoff into its own slot
`threadIdx.x + blockIdx.x*blockDim.x` of the payoff collection, changes no
other slot, and distinct threads (within block width `B`) target distinct
slots. -/
theorem payoff_single_writer_frame (p : KParams) (z v : ℕ → ℝ) (t b B : ℕ) :
    ((kernelV1Thread p t b B z v).1 = z ∧
     (kernelV1Thread p t b B z v).2 (t + b * B) = pathcalcV1 p z t b B ∧
     ∀ j, j ≠ t + b * B → (kernelV1Thread p t b B z v).2 j = v j) ∧
    ((kernelV2Thread p t b B z v).1 = z ∧
     (kernelV2Thread p t b B z v).2 (t + b * B) = pathcalcV2 p z t b B ∧
     ∀ j, j ≠ t + b * B → (kernelV2Thread p t b B z v).2 j = v j) ∧
    (∀ t' b', t < B → t' < B → (t, b) ≠ (t', b') →
      t + b * B ≠ t' + b' * B) := by
  refine ⟨⟨rfl, Function.update_same _ _ _, fun j hj =>
      Function.update_noteq hj _ _⟩,
    ⟨rfl, Function.update_same _ _ _, fun j hj =>
      Function.update_noteq hj _ _⟩, ?_⟩
  intro t' b' ht ht' hne h
  rw [mul_comm b B, mul_comm b' B] at h
  obtain ⟨htt, hbb⟩ := add_mul_digit_inj ht ht' h
  exact hne (by rw [htt, hbb])

end CudranMC

namespace CudranPoly

/-- The per-element polynomial `a*x*x + b*x + c` with the `__constant__ int`
coefficients of `cudran_square_poly_gpu.cu` (lines 15 and 25) promoted to the
float operand. -/
def polyTerm (a b c : ℤ) (x : ℝ) : ℝ := (a : ℝ) * x * x + (b : ℝ) * x + (c : ℝ)

/-- Kernel `square_avg` (lines 18–28) at output `index`: accumulate
`result += a*d_i[iter]*d_i[iter] + b*d_i[iter] + c` for `iter` from
`first_index = index*thread_i` to `first_index + thread_i - 1`, and write
`result / thread_i` into `d_o[index]`. -/
noncomputable def square_avg (a b c : ℤ) (thread_i : ℕ) (d_i : ℕ → ℝ) (index : ℕ) : ℝ :=
  ((List.range thread_i).foldl
    (fun result k => result + polyTerm a b c (d_i (index * thread_i + k))) 0) /
    (thread_i : ℝ)

lemma foldl_polyTerm_eq_sum (a b c : ℤ) (g : ℕ → ℝ) (n : ℕ) (x : ℝ) :
    (List.range n).foldl (fun result k => result + polyTerm a b c (g k)) x =
      x + ∑ k ∈ Finset.range n, polyTerm a b c (g k) := by
  induction n with
  | zero => simp
  | succ n ih =>
    rw [List.range_succ, List.foldl_append, List.foldl_cons, List.foldl_nil,
      ih, Finset.sum_range_succ]
    ring

/-- C10: `square_avg` writes into `d_o[index]` exactly the average of the
polynomial `a*x² + b*x + c` over its own contiguous block of `thread_i`
inputs starting at `index*thread_i`; consequently the output depends only on
that block, and the blocks of distinct output indices are disjoint. -/
theorem square_avg_blockwise_poly_mean (a b c : ℤ) (ti index : ℕ)
    (d d' : ℕ → ℝ) :
    (square_avg a b c ti d index =
      (∑ k ∈ Finset.range ti, ((a : ℝ) * d (index * ti + k) * d (index * ti + k)
        + (b : ℝ) * d (index * ti + k) + (c : ℝ))) / ti) ∧
    ((∀ j, index * ti ≤ j → j < index * ti + ti → d j = d' j) →
      square_avg a b c ti d index = square_avg a b c ti d' index) ∧
    (∀ i' j, index ≠ i' → index * ti ≤ j → j < index * ti + ti →
      ¬(i' * ti ≤ j ∧ j < i' * ti + ti)) := by
  have key : ∀ e : ℕ → ℝ, square_avg a b c ti e index =
      (∑ k ∈ Finset.range ti, polyTerm a b c (e (index * ti + k))) / ti := by
    intro e
    unfold square_avg
    rw [foldl_polyTerm_eq_sum a b c (fun k => e (index * ti + k)) ti 0, zero_add]
  refine ⟨by rw [key]; rfl, ?_, ?_⟩
  · intro h
    rw [key, key]
    congr 1
    refine Finset.sum_congr rfl fun k hk => ?_
    rw [h (index * ti + k) (Nat.le_add_right _ _)
      (Nat.add_lt_add_left (Finset.mem_range.mp hk) _)]
  · intro i' j hne hlo hhi
    rintro ⟨hlo', hhi'⟩
    rcases Nat.lt_or_ge index i' with hlt | hge
    · have : (index + 1) * ti ≤ i' * ti := Nat.mul_le_mul_right ti hlt
      have : index * ti + ti ≤ i' * ti := by rw [Nat.succ_mul] at this; omega
      omega
    · have hlt' : i' < index := by omega
      have : (i' + 1) * ti ≤ index * ti := Nat.mul_le_mul_right ti hlt'
      have : i' * ti + ti ≤ index * ti := by rw [Nat.succ_mul] at this; omega
      omega

end CudranPoly
